import Mathlib

/-!
Verification of the leftist-heap priority queue in `src/src/priority_queue.hpp`.

Two embeddings are developed:

* a functional embedding: the tree `Node`, the recursive `merge`, and the
  public queue operations as pure functions — used for the algorithmic
  claims (heap order, drain order, sizes, leftist invariant, copy);
* a store embedding (`Store`, `mergeS`, `pushS`, `popS`, `copyS`): nodes
  live in an explicit pointer-indexed store, the comparator may fail
  (`Except`), and every operation threads the store — used for the
  exception-safety and deep-copy-isolation claims, which are about
  mutation of memory.

Machine integers: the C++ `int npl` is modelled as `Int` (its values in
reachable states are small positive numbers, never near overflow), and
`size_t sz` as `Nat` (`sz--` only runs under the non-empty guard, so
truncated subtraction agrees with the code).
-/

namespace LeftistPQ

/-- The tree of `Node*` pointers: `nil` is the null pointer, `node d l r n`
a node with payload `d`, children `l`, `r` and stored null-path-length `n`
(the `npl` field of `struct Node`). -/
inductive Node (α : Type) where
  | nil : Node α
  | node (data : α) (left : Node α) (right : Node α) (npl : Int) : Node α
deriving DecidableEq, Repr

variable {α : Type}

/-- `getNPL` from the source: a null pointer contributes 0, otherwise the
stored `npl` field. -/
def getNPL : Node α → Int
  | .nil => 0
  | .node _ _ _ n => n

/-- Number of nodes in a tree (the reachable-node count the `sz` field
tracks). -/
def count : Node α → Nat
  | .nil => 0
  | .node _ l r _ => count l + count r + 1

/-- The elements held in a tree, as a list (preorder; only the multiset of
elements matters below). -/
def elemsL : Node α → List α
  | .nil => []
  | .node d l r _ => d :: (elemsL l ++ elemsL r)

/-- `priority_queue::merge(Node* h1, Node* h2)` from the source, with the
comparator `comp` passed as `lt`.  The source first returns the other tree
when one is null; otherwise it swaps so that `h1` is the one whose data is
not less, merges the other into `h1`'s right subtree, swaps `h1`'s children
when `getNPL(left) < getNPL(right)`, and finally sets
`npl = getNPL(right) + 1` (`updateNPL`). -/
def merge (lt : α → α → Bool) : Node α → Node α → Node α
  | .nil, h2 => h2
  | .node d1 l1 r1 n1, .nil => .node d1 l1 r1 n1
  | .node d1 l1 r1 n1, .node d2 l2 r2 n2 =>
    if lt d1 d2 then
      let m := merge lt r2 (.node d1 l1 r1 n1)
      if getNPL l2 < getNPL m then .node d2 m l2 (getNPL l2 + 1)
      else .node d2 l2 m (getNPL m + 1)
    else
      let m := merge lt r1 (.node d2 l2 r2 n2)
      if getNPL l1 < getNPL m then .node d1 m l1 (getNPL l1 + 1)
      else .node d1 l1 m (getNPL m + 1)
  termination_by h1 h2 => count h1 + count h2
  decreasing_by
    · simp [count]; omega
    · simp [count]; omega

theorem count_merge (lt : α → α → Bool) (h1 h2 : Node α) :
    count (merge lt h1 h2) = count h1 + count h2 := by
  induction h1, h2 using merge.induct lt with
  | case1 h2 => simp [merge, count]
  | case2 d1 l1 r1 n1 => simp [merge, count]
  | case3 d1 l1 r1 n1 d2 l2 r2 n2 hlt m hm ih =>
    have hm' : getNPL l2 < getNPL (merge lt r2 (Node.node d1 l1 r1 n1)) := hm
    simp only [merge, hlt, if_true, if_pos hm']
    simp only [count] at ih ⊢
    omega
  | case4 d1 l1 r1 n1 d2 l2 r2 n2 hlt m hm ih =>
    have hm' : ¬ getNPL l2 < getNPL (merge lt r2 (Node.node d1 l1 r1 n1)) := hm
    simp only [merge, hlt, if_true, if_neg hm']
    simp only [count] at ih ⊢
    omega
  | case5 d1 l1 r1 n1 d2 l2 r2 n2 hlt m hm ih =>
    have hm' : getNPL l1 < getNPL (merge lt r1 (Node.node d2 l2 r2 n2)) := hm
    simp only [merge, hlt, if_false, Bool.false_eq_true, if_pos hm']
    simp only [count] at ih ⊢
    omega
  | case6 d1 l1 r1 n1 d2 l2 r2 n2 hlt m hm ih =>
    have hm' : ¬ getNPL l1 < getNPL (merge lt r1 (Node.node d2 l2 r2 n2)) := hm
    simp only [merge, hlt, if_false, Bool.false_eq_true, if_neg hm']
    simp only [count] at ih ⊢
    omega

/-- The multiset of elements held in a tree. -/
def elemsM : Node α → Multiset α
  | .nil => 0
  | .node d l r _ => d ::ₘ (elemsM l + elemsM r)

theorem elemsM_merge (lt : α → α → Bool) (h1 h2 : Node α) :
    elemsM (merge lt h1 h2) = elemsM h1 + elemsM h2 := by
  induction h1, h2 using merge.induct lt with
  | case1 h2 => simp [merge, elemsM]
  | case2 d1 l1 r1 n1 => simp [merge, elemsM]
  | case3 d1 l1 r1 n1 d2 l2 r2 n2 hlt m hm ih =>
    have hm' : getNPL l2 < getNPL (merge lt r2 (Node.node d1 l1 r1 n1)) := hm
    simp only [merge, hlt, if_true, if_pos hm', elemsM, ih]
    simp only [← Multiset.singleton_add]
    abel
  | case4 d1 l1 r1 n1 d2 l2 r2 n2 hlt m hm ih =>
    have hm' : ¬ getNPL l2 < getNPL (merge lt r2 (Node.node d1 l1 r1 n1)) := hm
    simp only [merge, hlt, if_true, if_neg hm', elemsM, ih]
    simp only [← Multiset.singleton_add]
    abel
  | case5 d1 l1 r1 n1 d2 l2 r2 n2 hlt m hm ih =>
    have hm' : getNPL l1 < getNPL (merge lt r1 (Node.node d2 l2 r2 n2)) := hm
    simp only [merge, hlt, if_false, Bool.false_eq_true, if_pos hm', elemsM, ih]
    simp only [← Multiset.singleton_add]
    abel
  | case6 d1 l1 r1 n1 d2 l2 r2 n2 hlt m hm ih =>
    have hm' : ¬ getNPL l1 < getNPL (merge lt r1 (Node.node d2 l2 r2 n2)) := hm
    simp only [merge, hlt, if_false, Bool.false_eq_true, if_neg hm', elemsM, ih]
    simp only [← Multiset.singleton_add]
    abel

/-- Max-heap well-formedness under `lt`, in dominant form: every node's
data is not less (`lt … = false`) than any element strictly below it. -/
def HeapOk (lt : α → α → Bool) : Node α → Prop
  | .nil => True
  | .node d l r _ => HeapOk lt l ∧ HeapOk lt r ∧
      (∀ x ∈ elemsM l, lt d x = false) ∧ (∀ x ∈ elemsM r, lt d x = false)

instance heapOkDec (lt : α → α → Bool) [DecidableEq α] :
    (t : Node α) → Decidable (HeapOk lt t)
  | .nil => .isTrue trivial
  | .node d l r n => by
    have hl := heapOkDec lt l
    have hr := heapOkDec lt r
    unfold HeapOk
    infer_instance

/-- The leftist invariant together with the stored-npl equation: at every
node, `getNPL right ≤ getNPL left` and the stored `npl` equals
`getNPL right + 1`. -/
def LeftistOk : Node α → Prop
  | .nil => True
  | .node _ l r n => LeftistOk l ∧ LeftistOk r ∧
      getNPL r ≤ getNPL l ∧ n = getNPL r + 1

instance leftistOkDec [DecidableEq α] : (t : Node α) → Decidable (LeftistOk t)
  | .nil => .isTrue trivial
  | .node d l r n => by
    have hl := leftistOkDec l
    have hr := leftistOkDec r
    unfold LeftistOk
    infer_instance

theorem leftistOk_merge (lt : α → α → Bool) (h1 h2 : Node α)
    (w1 : LeftistOk h1) (w2 : LeftistOk h2) : LeftistOk (merge lt h1 h2) := by
  revert w1 w2
  induction h1, h2 using merge.induct lt with
  | case1 h2 => intro _ w2; simpa [merge] using w2
  | case2 d1 l1 r1 n1 => intro w1 _; simpa [merge] using w1
  | case3 d1 l1 r1 n1 d2 l2 r2 n2 hlt m hm ih =>
    intro w1 w2
    have hm' : getNPL l2 < getNPL (merge lt r2 (Node.node d1 l1 r1 n1)) := hm
    simp only [merge, hlt, if_true, if_pos hm']
    obtain ⟨wl2, wr2, _, _⟩ := w2
    exact ⟨ih wr2 w1, wl2, le_of_lt hm', rfl⟩
  | case4 d1 l1 r1 n1 d2 l2 r2 n2 hlt m hm ih =>
    intro w1 w2
    have hm' : ¬ getNPL l2 < getNPL (merge lt r2 (Node.node d1 l1 r1 n1)) := hm
    simp only [merge, hlt, if_true, if_neg hm']
    obtain ⟨wl2, wr2, _, _⟩ := w2
    exact ⟨wl2, ih wr2 w1, le_of_not_lt hm', rfl⟩
  | case5 d1 l1 r1 n1 d2 l2 r2 n2 hlt m hm ih =>
    intro w1 w2
    have hm' : getNPL l1 < getNPL (merge lt r1 (Node.node d2 l2 r2 n2)) := hm
    simp only [merge, hlt, if_false, Bool.false_eq_true, if_pos hm']
    obtain ⟨wl1, wr1, _, _⟩ := w1
    exact ⟨ih wr1 w2, wl1, le_of_lt hm', rfl⟩
  | case6 d1 l1 r1 n1 d2 l2 r2 n2 hlt m hm ih =>
    intro w1 w2
    have hm' : ¬ getNPL l1 < getNPL (merge lt r1 (Node.node d2 l2 r2 n2)) := hm
    simp only [merge, hlt, if_false, Bool.false_eq_true, if_neg hm']
    obtain ⟨wl1, wr1, _, _⟩ := w1
    exact ⟨wl1, ih wr1 w2, le_of_not_lt hm', rfl⟩

theorem heapOk_merge (lt : α → α → Bool)
    (hasym : ∀ a b, lt a b = true → lt b a = false)
    (htrans : ∀ a b c, lt a b = false → lt b c = false → lt a c = false)
    (h1 h2 : Node α)
    (w1 : HeapOk lt h1) (w2 : HeapOk lt h2) : HeapOk lt (merge lt h1 h2) := by
  revert w1 w2
  induction h1, h2 using merge.induct lt with
  | case1 h2 => intro _ w2; simpa [merge] using w2
  | case2 d1 l1 r1 n1 => intro w1 _; simpa [merge] using w1
  | case3 d1 l1 r1 n1 d2 l2 r2 n2 hlt m hm ih =>
    intro w1 w2
    have hm' : getNPL l2 < getNPL (merge lt r2 (Node.node d1 l1 r1 n1)) := hm
    simp only [merge, hlt, if_true, if_pos hm']
    obtain ⟨wl2, wr2, dl2, dr2⟩ := w2
    obtain ⟨wl1, wr1, dl1, dr1⟩ := w1
    refine ⟨ih wr2 ⟨wl1, wr1, dl1, dr1⟩, wl2, ?_, dl2⟩
    intro x hx
    rw [elemsM_merge] at hx
    have hd21 : lt d2 d1 = false := hasym _ _ hlt
    rcases Multiset.mem_add.1 hx with hx | hx
    · exact dr2 x hx
    · simp only [elemsM, Multiset.mem_cons, Multiset.mem_add] at hx
      rcases hx with rfl | hx | hx
      · exact hd21
      · exact htrans _ _ _ hd21 (dl1 x hx)
      · exact htrans _ _ _ hd21 (dr1 x hx)
  | case4 d1 l1 r1 n1 d2 l2 r2 n2 hlt m hm ih =>
    intro w1 w2
    have hm' : ¬ getNPL l2 < getNPL (merge lt r2 (Node.node d1 l1 r1 n1)) := hm
    simp only [merge, hlt, if_true, if_neg hm']
    obtain ⟨wl2, wr2, dl2, dr2⟩ := w2
    obtain ⟨wl1, wr1, dl1, dr1⟩ := w1
    refine ⟨wl2, ih wr2 ⟨wl1, wr1, dl1, dr1⟩, dl2, ?_⟩
    intro x hx
    rw [elemsM_merge] at hx
    have hd21 : lt d2 d1 = false := hasym _ _ hlt
    rcases Multiset.mem_add.1 hx with hx | hx
    · exact dr2 x hx
    · simp only [elemsM, Multiset.mem_cons, Multiset.mem_add] at hx
      rcases hx with rfl | hx | hx
      · exact hd21
      · exact htrans _ _ _ hd21 (dl1 x hx)
      · exact htrans _ _ _ hd21 (dr1 x hx)
  | case5 d1 l1 r1 n1 d2 l2 r2 n2 hlt m hm ih =>
    intro w1 w2
    have hlt' : lt d1 d2 = false := by simpa using hlt
    have hm' : getNPL l1 < getNPL (merge lt r1 (Node.node d2 l2 r2 n2)) := hm
    simp only [merge, hlt, if_false, Bool.false_eq_true, if_pos hm']
    obtain ⟨wl1, wr1, dl1, dr1⟩ := w1
    obtain ⟨wl2, wr2, dl2, dr2⟩ := w2
    refine ⟨ih wr1 ⟨wl2, wr2, dl2, dr2⟩, wl1, ?_, dl1⟩
    intro x hx
    rw [elemsM_merge] at hx
    rcases Multiset.mem_add.1 hx with hx | hx
    · exact dr1 x hx
    · simp only [elemsM, Multiset.mem_cons, Multiset.mem_add] at hx
      rcases hx with rfl | hx | hx
      · exact hlt'
      · exact htrans _ _ _ hlt' (dl2 x hx)
      · exact htrans _ _ _ hlt' (dr2 x hx)
  | case6 d1 l1 r1 n1 d2 l2 r2 n2 hlt m hm ih =>
    intro w1 w2
    have hlt' : lt d1 d2 = false := by simpa using hlt
    have hm' : ¬ getNPL l1 < getNPL (merge lt r1 (Node.node d2 l2 r2 n2)) := hm
    simp only [merge, hlt, if_false, Bool.false_eq_true, if_neg hm']
    obtain ⟨wl1, wr1, dl1, dr1⟩ := w1
    obtain ⟨wl2, wr2, dl2, dr2⟩ := w2
    refine ⟨wl1, ih wr1 ⟨wl2, wr2, dl2, dr2⟩, dl1, ?_⟩
    intro x hx
    rw [elemsM_merge] at hx
    rcases Multiset.mem_add.1 hx with hx | hx
    · exact dr1 x hx
    · simp only [elemsM, Multiset.mem_cons, Multiset.mem_add] at hx
      rcases hx with rfl | hx | hx
      · exact hlt'
      · exact htrans _ _ _ hlt' (dl2 x hx)
      · exact htrans _ _ _ hlt' (dr2 x hx)

/-- The queue state: the `root` pointer and the `sz` counter of
`priority_queue`. -/
structure PQ (α : Type) where
  root : Node α
  sz : Nat
deriving DecidableEq, Repr

/-- The default-constructed queue: `root = nullptr`, `sz = 0`. -/
def emptyQ : PQ α := ⟨.nil, 0⟩

/-- `empty()`: `sz == 0`. -/
def emptyB (q : PQ α) : Bool := q.sz == 0

/-- `size()`. -/
def sizeQ (q : PQ α) : Nat := q.sz

/-- `top()`: throws `container_is_empty` when `empty()`; otherwise returns
`root->data`.  The `.nil` fallback models the out-of-contract null
dereference; it is unreachable whenever `sz` counts the nodes of `root`. -/
def topQ (q : PQ α) : Except Unit α :=
  if q.sz = 0 then .error ()
  else match q.root with
    | .nil => .error ()
    | .node d _ _ _ => .ok d

/-- `push(e)`: a fresh leaf (children null, `npl = 1`) merged into the
root, then `sz++`. -/
def pushQ (lt : α → α → Bool) (q : PQ α) (e : α) : PQ α :=
  ⟨merge lt q.root (.node e .nil .nil 1), q.sz + 1⟩

/-- `pop()`: throws `container_is_empty` when `empty()` (the error value
carries the queue, which the call leaves untouched); otherwise the root is
replaced by the merge of its two children, the old root freed, `sz--`.
The `.nil` fallback models the out-of-contract null dereference. -/
def popQ (lt : α → α → Bool) (q : PQ α) : Except (PQ α) (PQ α) :=
  if q.sz = 0 then .error q
  else match q.root with
    | .nil => .error q
    | .node _ l r _ => .ok ⟨merge lt l r, q.sz - 1⟩

/-- `priority_queue::copy`: fresh nodes reproducing data, child structure
and the stored `npl` verbatim. -/
def copy : Node α → Node α
  | .nil => .nil
  | .node d l r n => .node d (copy l) (copy r) n

/-- Copy construction: `root = copy(other.root); sz = other.sz`. -/
def copyQ (q : PQ α) : PQ α := ⟨copy q.root, q.sz⟩

/-- `operator=`: the `this != &other` aliasing check is the `same` flag
(are the two references the same object?); when `same` nothing happens,
otherwise the old nodes are dropped and the source deep-copied. -/
def assignQ (same : Bool) (dst src : PQ α) : PQ α :=
  if same then dst else ⟨copy src.root, src.sz⟩

/-- `merge(priority_queue& other)`: the `this == &other` check is the
`same` flag; otherwise the recipient takes `merge(root, other.root)` and
`sz + other.sz`, and the donor becomes the valid empty queue.  Returns
(recipient, donor). -/
def mergeQ (lt : α → α → Bool) (same : Bool) (a b : PQ α) : PQ α × PQ α :=
  if same then (a, b)
  else (⟨merge lt a.root b.root, a.sz + b.sz⟩, ⟨.nil, 0⟩)

/-- Repeated `top(); pop()` on a tree until it is exhausted. -/
def drain (lt : α → α → Bool) : Node α → List α
  | .nil => []
  | .node d l r _ => d :: drain lt (merge lt l r)
  termination_by t => count t
  decreasing_by simp only [count_merge, count]; omega

/-- A sequence of pushes. -/
def pushAll (lt : α → α → Bool) (q : PQ α) (es : List α) : PQ α :=
  es.foldl (pushQ lt) q

theorem length_drain (lt : α → α → Bool) (t : Node α) :
    (drain lt t).length = count t := by
  induction t using drain.induct lt with
  | case1 => simp [drain, count]
  | case2 d l r n ih =>
    simp only [drain, List.length_cons, ih, count_merge, count]

theorem elemsM_drain (lt : α → α → Bool) (t : Node α) :
    (drain lt t : Multiset α) = elemsM t := by
  induction t using drain.induct lt with
  | case1 => simp [drain, elemsM]
  | case2 d l r n ih =>
    simp only [drain, ← Multiset.cons_coe, ih, elemsM_merge, elemsM]

theorem chain_drain (lt : α → α → Bool)
    (hasym : ∀ a b, lt a b = true → lt b a = false)
    (htrans : ∀ a b c, lt a b = false → lt b c = false → lt a c = false)
    (t : Node α) (ht : HeapOk lt t) :
    (drain lt t).Chain' (fun a b => lt a b = false) := by
  revert ht
  induction t using drain.induct lt with
  | case1 => intro _; simp [drain]
  | case2 d l r n ih =>
    intro ht
    obtain ⟨wl, wr, dl, dr⟩ := ht
    rw [drain, List.chain'_cons']
    refine ⟨?_, ih (heapOk_merge lt hasym htrans l r wl wr)⟩
    intro b hb
    have hmem : b ∈ elemsM (merge lt l r) := by
      rw [← elemsM_drain]
      exact Multiset.mem_coe.2 (List.mem_of_mem_head? hb)
    rw [elemsM_merge] at hmem
    rcases Multiset.mem_add.1 hmem with hmem | hmem
    · exact dl b hmem
    · exact dr b hmem

/-- Null path length as the glossary defines it: length of the shortest
path to a node with fewer than two children, absent tree contributing 0. -/
def realNPL : Node α → Int
  | .nil => 0
  | .node _ l r _ => min (realNPL l) (realNPL r) + 1

/-- The leftist invariant phrased with the true null path lengths: at
every node `NPL(left) ≥ NPL(right)` and the stored `npl` field equals
`NPL(right child) + 1`. -/
def LeftistOkR : Node α → Prop
  | .nil => True
  | .node _ l r n => LeftistOkR l ∧ LeftistOkR r ∧
      realNPL r ≤ realNPL l ∧ n = realNPL r + 1

instance leftistOkRDec [DecidableEq α] : (t : Node α) → Decidable (LeftistOkR t)
  | .nil => .isTrue trivial
  | .node d l r n => by
    have hl := leftistOkRDec l
    have hr := leftistOkRDec r
    unfold LeftistOkR
    infer_instance

theorem getNPL_eq_realNPL {t : Node α} (ht : LeftistOk t) : getNPL t = realNPL t := by
  induction t with
  | nil => rfl
  | node d l r n ihl ihr =>
    obtain ⟨wl, wr, hle, heq⟩ := ht
    have hl := ihl wl
    have hr := ihr wr
    show n = min (realNPL l) (realNPL r) + 1
    rw [min_eq_right (by rw [← hl, ← hr]; exact hle), heq, hr]

theorem leftistOk_iff_leftistOkR {t : Node α} : LeftistOk t ↔ LeftistOkR t := by
  induction t with
  | nil => simp [LeftistOk, LeftistOkR]
  | node d l r n ihl ihr =>
    constructor
    · rintro ⟨wl, wr, hle, heq⟩
      have el := getNPL_eq_realNPL wl
      have er := getNPL_eq_realNPL wr
      exact ⟨ihl.1 wl, ihr.1 wr, by rw [← el, ← er]; exact hle, by rw [← er]; exact heq⟩
    · rintro ⟨wl, wr, hle, heq⟩
      have wl' := ihl.2 wl
      have wr' := ihr.2 wr
      have el := getNPL_eq_realNPL wl'
      have er := getNPL_eq_realNPL wr'
      exact ⟨wl', wr', by rw [el, er]; exact hle, by rw [er]; exact heq⟩

/-- The queue states reachable through the public interface: default
construction, `push`, successful `pop`, both ends of a queue-to-queue
`merge`, copy construction, and assignment. -/
inductive Reachable (lt : α → α → Bool) : PQ α → Prop where
  | empty : Reachable lt emptyQ
  | push (q : PQ α) (e : α) : Reachable lt q → Reachable lt (pushQ lt q e)
  | pop (q q' : PQ α) : Reachable lt q → popQ lt q = .ok q' → Reachable lt q'
  | mergeRecipient (a b : PQ α) (same : Bool) : Reachable lt a → Reachable lt b →
      Reachable lt (mergeQ lt same a b).1
  | mergeDonor (a b : PQ α) (same : Bool) : Reachable lt a → Reachable lt b →
      Reachable lt (mergeQ lt same a b).2
  | copy (q : PQ α) : Reachable lt q → Reachable lt (copyQ q)
  | assign (dst src : PQ α) (same : Bool) : Reachable lt dst → Reachable lt src →
      Reachable lt (assignQ same dst src)

theorem copy_eq (t : Node α) : copy t = t := by
  induction t with
  | nil => rfl
  | node d l r n ihl ihr => simp [copy, ihl, ihr]

theorem leftistOk_reachable {lt : α → α → Bool} {q : PQ α}
    (hq : Reachable lt q) : LeftistOk q.root := by
  induction hq with
  | empty => trivial
  | push q e hq ih => exact leftistOk_merge lt _ _ ih ⟨trivial, trivial, le_refl 0, rfl⟩
  | pop q q' hq hpop ih =>
    unfold popQ at hpop
    split at hpop
    · exact absurd hpop (by simp)
    · split at hpop
      · exact absurd hpop (by simp)
      · next hsz d l r n hroot =>
        rw [hroot] at ih
        obtain ⟨wl, wr, _, _⟩ := ih
        cases hpop
        exact leftistOk_merge lt _ _ wl wr
  | mergeRecipient a b same ha hb iha ihb =>
    unfold mergeQ
    split
    · exact iha
    · exact leftistOk_merge lt _ _ iha ihb
  | mergeDonor a b same ha hb iha ihb =>
    unfold mergeQ
    split
    · exact ihb
    · trivial
  | copy q hq ih => simpa [copyQ, copy_eq] using ih
  | assign dst src same hd hs ihd ihs =>
    unfold assignQ
    split
    · exact ihd
    · simpa [copy_eq] using ihs

/-- `sz` counts the nodes reachable from `root` in every reachable state
(invariant 4 of the data model). -/
theorem size_reachable {lt : α → α → Bool} {q : PQ α}
    (hq : Reachable lt q) : q.sz = count q.root := by
  induction hq with
  | empty => rfl
  | push q e hq ih => simp [pushQ, count_merge, count, ih]
  | pop q q' hq hpop ih =>
    unfold popQ at hpop
    split at hpop
    · exact absurd hpop (by simp)
    · split at hpop
      · exact absurd hpop (by simp)
      · cases hpop
        next hsz d l r n hroot =>
          simp only [hroot, count] at ih
          simp [count_merge, ih]
  | mergeRecipient a b same ha hb iha ihb =>
    unfold mergeQ
    split
    · exact iha
    · simp [count_merge, iha, ihb]
  | mergeDonor a b same ha hb iha ihb =>
    unfold mergeQ
    split
    · exact ihb
    · rfl
  | copy q hq ih => simpa [copyQ, copy_eq] using ih
  | assign dst src same hd hs ihd ihs =>
    unfold assignQ
    split
    · exact ihd
    · simpa [copy_eq] using ihs

theorem heapOk_reachable {lt : α → α → Bool}
    (hasym : ∀ a b, lt a b = true → lt b a = false)
    (htrans : ∀ a b c, lt a b = false → lt b c = false → lt a c = false)
    {q : PQ α} (hq : Reachable lt q) : HeapOk lt q.root := by
  induction hq with
  | empty => trivial
  | push q e hq ih =>
    exact heapOk_merge lt hasym htrans _ _ ih ⟨trivial, trivial, by simp [elemsM], by simp [elemsM]⟩
  | pop q q' hq hpop ih =>
    unfold popQ at hpop
    split at hpop
    · exact absurd hpop (by simp)
    · split at hpop
      · exact absurd hpop (by simp)
      · next hsz d l r n hroot =>
        rw [hroot] at ih
        obtain ⟨wl, wr, _, _⟩ := ih
        cases hpop
        exact heapOk_merge lt hasym htrans _ _ wl wr
  | mergeRecipient a b same ha hb iha ihb =>
    unfold mergeQ
    split
    · exact iha
    · exact heapOk_merge lt hasym htrans _ _ iha ihb
  | mergeDonor a b same ha hb iha ihb =>
    unfold mergeQ
    split
    · exact ihb
    · trivial
  | copy q hq ih => simpa [copyQ, copy_eq] using ih
  | assign dst src same hd hs ihd ihs =>
    unfold assignQ
    split
    · exact ihd
    · simpa [copy_eq] using ihs

/-! ### Store embedding

Nodes live in an explicit pointer-indexed store and the comparator may
fail, modelling a throwing `Compare`.  `Except`'s error value carries the
store as it is when the exception propagates. -/

/-- A heap-allocated `Node` record; the two pointer fields are
`Option Nat` (`none` is the null pointer). -/
structure NodeR (α : Type) where
  data : α
  left : Option Nat
  right : Option Nat
  npl : Int
deriving DecidableEq, Repr

/-- The node store: an association list from pointers to records, most
recent allocation first. -/
abbrev Store (α : Type) := List (Nat × NodeR α)

/-- Dereference a pointer. -/
def getN (s : Store α) (p : Nat) : Option (NodeR α) :=
  (s.find? (fun e => e.1 == p)).map (fun e => e.2)

/-- Mutate the record at `p` in place. -/
def setN (s : Store α) (p : Nat) (f : NodeR α → NodeR α) : Store α :=
  s.map (fun e => if e.1 == p then (e.1, f e.2) else e)

/-- `delete p`. -/
def delN (s : Store α) (p : Nat) : Store α :=
  s.eraseP (fun e => e.1 == p)

/-- `getNPL` on the store (a dangling pointer reads as 0; never reached on
valid stores). -/
def nplS (s : Store α) : Option Nat → Int
  | none => 0
  | some p =>
    match getN s p with
    | none => 0
    | some n => n.npl

theorem getN_cons (a : Nat) (b : NodeR α) (s : Store α) (q : Nat) :
    getN ((a, b) :: s) q = if a = q then some b else getN s q := by
  by_cases h : a = q
  · simp [getN, List.find?_cons_of_pos, h]
  · rw [if_neg h]
    unfold getN
    rw [List.find?_cons_of_neg]
    simpa using h

theorem setN_cons (a : Nat) (b : NodeR α) (s : Store α) (p : Nat)
    (f : NodeR α → NodeR α) :
    setN ((a, b) :: s) p f = (if a = p then (a, f b) else (a, b)) :: setN s p f := by
  simp only [setN, List.map_cons]
  by_cases h : a = p <;> simp [h]

theorem delN_cons (a : Nat) (b : NodeR α) (s : Store α) (p : Nat) :
    delN ((a, b) :: s) p = if a = p then s else (a, b) :: delN s p := by
  by_cases h : a = p <;> simp [delN, List.eraseP_cons, h]

theorem getN_setN_self (s : Store α) (p : Nat) (f : NodeR α → NodeR α) :
    getN (setN s p f) p = (getN s p).map f := by
  induction s with
  | nil => rfl
  | cons e s ih =>
    obtain ⟨a, b⟩ := e
    rw [setN_cons]
    by_cases h : a = p
    · rw [if_pos h, getN_cons, if_pos h, getN_cons, if_pos h]; rfl
    · rw [if_neg h, getN_cons, if_neg h, getN_cons, if_neg h, ih]

theorem getN_setN_ne (s : Store α) (p q : Nat) (f : NodeR α → NodeR α)
    (hne : q ≠ p) : getN (setN s p f) q = getN s q := by
  induction s with
  | nil => rfl
  | cons e s ih =>
    obtain ⟨a, b⟩ := e
    rw [setN_cons]
    by_cases h : a = p
    · have haq : ¬ a = q := by rw [h]; exact fun hc => hne hc.symm
      rw [if_pos h, getN_cons, if_neg haq, getN_cons, if_neg haq, ih]
    · by_cases hq : a = q
      · rw [if_neg h, getN_cons, if_pos hq, getN_cons, if_pos hq]
      · rw [if_neg h, getN_cons, if_neg hq, getN_cons, if_neg hq, ih]

theorem getN_delN_ne (s : Store α) (p q : Nat) (hne : q ≠ p) :
    getN (delN s p) q = getN s q := by
  induction s with
  | nil => rfl
  | cons e s ih =>
    obtain ⟨a, b⟩ := e
    rw [delN_cons]
    by_cases h : a = p
    · have haq : ¬ a = q := by rw [h]; exact fun hc => hne hc.symm
      rw [if_pos h, getN_cons, if_neg haq]
    · by_cases hq : a = q
      · rw [if_neg h, getN_cons, if_pos hq, getN_cons, if_pos hq]
      · rw [if_neg h, getN_cons, if_neg hq, getN_cons, if_neg hq, ih]

theorem getN_cons_ne (s : Store α) (p q : Nat) (n : NodeR α) (hne : q ≠ p) :
    getN ((p, n) :: s) q = getN s q := by
  rw [getN_cons, if_neg (fun hc => hne hc.symm)]

theorem delN_cons_self (s : Store α) (p : Nat) (n : NodeR α) :
    delN ((p, n) :: s) p = s := by
  rw [delN_cons, if_pos rfl]

/-- The code the C++ `merge(Node*, Node*)` runs after its recursive call
returned `m`, with `w` the winner pointer: `h1->right = m`; swap `h1`'s
children when `getNPL(left) < getNPL(right)`; `updateNPL(h1)`; return
`h1`.  `s0` is the store the enclosing call was given (the out-of-contract
dangling-`w` branches read as failures carrying it). -/
def mergeTail (s0 s1 : Store α) (w : Nat) (m : Option Nat) :
    Except (Store α) (Store α × Option Nat) :=
  -- h1->right = merge(h1->right, h2)
  let s2 := setN s1 w (fun n => ⟨n.data, n.left, m, n.npl⟩)
  match getN s2 w with
  | none => .error s0
  | some nw =>
    -- if (getNPL(h1->left) < getNPL(h1->right)) std::swap(h1->left, h1->right)
    let s3 := if nplS s2 nw.left < nplS s2 nw.right
              then setN s2 w (fun n => ⟨n.data, n.right, n.left, n.npl⟩)
              else s2
    match getN s3 w with
    | none => .error s0
    | some nw2 =>
      -- updateNPL(h1): npl = getNPL(h1->right) + 1
      .ok (setN s3 w (fun n => ⟨n.data, n.left, n.right, nplS s3 nw2.right + 1⟩), some w)

/-- `priority_queue::merge(Node*, Node*)` on the store, with a comparator
that may fail.  `fuel` bounds the recursion depth (the C++ recursion
terminates on tree-shaped stores; a cyclic store would not, hence the
explicit bound, whose exhaustion reads as a failure with the store
untouched).  Dangling-pointer dereferences are out of contract and also
read as failures carrying the incoming store. -/
def mergeS (ltE : α → α → Except Unit Bool) :
    Nat → Store α → Option Nat → Option Nat → Except (Store α) (Store α × Option Nat)
  | _, s, none, h2 => .ok (s, h2)
  | _, s, some p1, none => .ok (s, some p1)
  | 0, s, some _, some _ => .error s
  | fuel+1, s, some p1, some p2 =>
    match getN s p1, getN s p2 with
    | some n1, some n2 =>
      match ltE n1.data n2.data with
      | .error _ => .error s
      | .ok b =>
        -- after the conditional `std::swap(h1, h2)`, `w` is `h1` (the
        -- winner) and `l` is `h2`; `wr` is the winner's record as read
        -- before the recursive call
        let w := if b then p2 else p1
        let l := if b then p1 else p2
        let wr := if b then n2 else n1
        match mergeS ltE fuel s wr.right (some l) with
        | .error s1 => .error s1
        | .ok (s1, m) => mergeTail s s1 w m
    | _, _ => .error s

theorem mergeTail_error_eq (s0 s1 : Store α) (w : Nat) (m : Option Nat)
    (s' : Store α) (h : mergeTail s0 s1 w m = .error s') : s' = s0 := by
  simp only [mergeTail] at h
  split at h
  · exact (Except.error.injEq .. ▸ h).symm
  · split at h
    · exact (Except.error.injEq .. ▸ h).symm
    · simp at h

/-- `push(e)` on the store: allocate the leaf at pointer `next`, merge it
into the root; if the merge fails, delete the leaf and re-raise, leaving
the observable state exactly as before.  Ok carries
(store, next counter, root, sz); error carries (store, root, sz) as the
exception leaves `push`. -/
def pushS (ltE : α → α → Except Unit Bool) (fuel : Nat) (s : Store α)
    (next : Nat) (root : Option Nat) (sz : Nat) (e : α) :
    Except (Store α × Option Nat × Nat) (Store α × Nat × Option Nat × Nat) :=
  match mergeS ltE fuel ((next, ⟨e, none, none, 1⟩) :: s) root (some next) with
  | .ok (s2, r) => .ok (s2, next + 1, r, sz + 1)
  | .error s2 => .error (delN s2 next, root, sz)

/-- `pop()` on the store: raise `container_is_empty` when `sz == 0` (state
untouched); otherwise merge the root's children, delete the old root,
decrement `sz`.  A failing comparator re-raises with the state as it is
at that point. -/
def popS (ltE : α → α → Except Unit Bool) (fuel : Nat) (s : Store α)
    (root : Option Nat) (sz : Nat) :
    Except (Store α × Option Nat × Nat) (Store α × Option Nat × Nat) :=
  if sz = 0 then .error (s, root, sz)
  else
    match root with
    | none => .error (s, root, sz)      -- null dereference: out of contract
    | some p =>
      match getN s p with
      | none => .error (s, root, sz)    -- dangling: out of contract
      | some n =>
        match mergeS ltE fuel s n.left n.right with
        | .error s1 => .error (s1, root, sz)
        | .ok (s1, r) => .ok (delN s1 p, r, sz - 1)

/-- `merge(priority_queue& other)` on the store (`same` is the
`this == &other` identity check).  States are (root, sz) pairs; ok and
error both carry (store, this-state, other-state). -/
def mergeQS (ltE : α → α → Except Unit Bool) (fuel : Nat) (s : Store α)
    (same : Bool) (rootA : Option Nat) (szA : Nat) (rootB : Option Nat) (szB : Nat) :
    Except (Store α × (Option Nat × Nat) × (Option Nat × Nat))
           (Store α × (Option Nat × Nat) × (Option Nat × Nat)) :=
  if same then .ok (s, (rootA, szA), (rootB, szB))
  else
    match mergeS ltE fuel s rootA rootB with
    | .error s1 => .error (s1, (rootA, szA), (rootB, szB))
    | .ok (s1, r) => .ok (s1, (r, szA + szB), (none, 0))

/-- The tree-level merge never partially mutates on failure: whenever it
raises, the store it leaves behind is exactly the store it was given. -/
theorem mergeS_error_eq (ltE : α → α → Except Unit Bool) (fuel : Nat)
    (s s' : Store α) (h1 h2 : Option Nat)
    (h : mergeS ltE fuel s h1 h2 = .error s') : s' = s := by
  induction fuel generalizing s s' h1 h2 with
  | zero =>
    match h1, h2 with
    | none, h2 => simp [mergeS] at h
    | some p1, none => simp [mergeS] at h
    | some p1, some p2 => simp only [mergeS, Except.error.injEq] at h; exact h.symm
  | succ fuel ih =>
    match h1, h2 with
    | none, h2 => simp [mergeS] at h
    | some p1, none => simp [mergeS] at h
    | some p1, some p2 =>
      simp only [mergeS] at h
      split at h
      · next n1 n2 hg1 hg2 =>
        split at h
        · exact (Except.error.injEq .. ▸ h).symm
        · next b hb =>
          split at h
          · next s1 hrec =>
            have := ih s s1 _ _ hrec
            subst this
            exact (Except.error.injEq .. ▸ h).symm
          · next s1 m hrec =>
            exact mergeTail_error_eq s s1 _ m s' h
      · exact (Except.error.injEq .. ▸ h).symm

theorem getN_mem {s : Store α} {p : Nat} {n : NodeR α}
    (h : getN s p = some n) : (p, n) ∈ s := by
  unfold getN at h
  match hf : s.find? (fun e => e.1 == p) with
  | none => rw [hf] at h; exact absurd h (by simp)
  | some e =>
    rw [hf] at h
    have hp : e.1 = p := by simpa using List.find?_some hf
    have hm := List.mem_of_find?_eq_some hf
    obtain ⟨a, b⟩ := e
    have hb : b = n := by simpa using h
    cases hb
    cases hp
    exact hm

theorem pushS_error_eq (ltE : α → α → Except Unit Bool) (fuel : Nat)
    (s s' : Store α) (next : Nat) (root r' : Option Nat) (sz sz' : Nat) (e : α)
    (h : pushS ltE fuel s next root sz e = .error (s', r', sz')) :
    s' = s ∧ r' = root ∧ sz' = sz := by
  unfold pushS at h
  split at h
  · simp at h
  · next s2 hrec =>
    have hs2 := mergeS_error_eq ltE fuel _ s2 root (some next) hrec
    subst hs2
    rw [delN_cons_self] at h
    simp only [Except.error.injEq, Prod.mk.injEq] at h
    exact ⟨h.1.symm, h.2.1.symm, h.2.2.symm⟩

theorem popS_error_eq (ltE : α → α → Except Unit Bool) (fuel : Nat)
    (s s' : Store α) (root r' : Option Nat) (sz sz' : Nat)
    (h : popS ltE fuel s root sz = .error (s', r', sz')) :
    s' = s ∧ r' = root ∧ sz' = sz := by
  unfold popS at h
  split at h
  · simp only [Except.error.injEq, Prod.mk.injEq] at h
    exact ⟨h.1.symm, h.2.1.symm, h.2.2.symm⟩
  · split at h
    · simp only [Except.error.injEq, Prod.mk.injEq] at h
      exact ⟨h.1.symm, h.2.1.symm, h.2.2.symm⟩
    · split at h
      · simp only [Except.error.injEq, Prod.mk.injEq] at h
        exact ⟨h.1.symm, h.2.1.symm, h.2.2.symm⟩
      · split at h
        · next s1 hrec =>
          have hs1 := mergeS_error_eq ltE fuel _ s1 _ _ hrec
          subst hs1
          simp only [Except.error.injEq, Prod.mk.injEq] at h
          exact ⟨h.1.symm, h.2.1.symm, h.2.2.symm⟩
        · simp at h

theorem mergeQS_error_eq (ltE : α → α → Except Unit Bool) (fuel : Nat)
    (s s' : Store α) (same : Bool) (rootA rootB : Option Nat) (szA szB : Nat)
    (a' b' : Option Nat × Nat)
    (h : mergeQS ltE fuel s same rootA szA rootB szB = .error (s', a', b')) :
    s' = s ∧ a' = (rootA, szA) ∧ b' = (rootB, szB) := by
  unfold mergeQS at h
  split at h
  · simp at h
  · split at h
    · next s1 hrec =>
      have hs1 := mergeS_error_eq ltE fuel _ s1 _ _ hrec
      subst hs1
      simp only [Except.error.injEq, Prod.mk.injEq] at h
      exact ⟨h.1.symm, h.2.1.symm, h.2.2.symm⟩
    · simp at h

/-! ### Region separation

The deep-copy isolation argument: the copy's nodes all live at pointers
`≥ B` and only point at pointers `≥ B`, so any later operation rooted in
the copy never touches a binding below `B` — in particular it never
touches the original's nodes. -/

/-- A pointer that is null or at least `B`. -/
def PtrGe (B : Nat) : Option Nat → Prop
  | none => True
  | some p => B ≤ p

/-- The high region `[B, ∞)` of the store is closed: every record stored
at a pointer `≥ B` has children that are null or again `≥ B`. -/
def RegionSep (s : Store α) (B : Nat) : Prop :=
  ∀ e ∈ s, B ≤ e.1 → PtrGe B e.2.left ∧ PtrGe B e.2.right

theorem regionSep_setN {s : Store α} {B : Nat} (w : Nat) (f : NodeR α → NodeR α)
    (hs : RegionSep s B)
    (hf : ∀ n : NodeR α, PtrGe B n.left ∧ PtrGe B n.right →
      PtrGe B (f n).left ∧ PtrGe B (f n).right) :
    RegionSep (setN s w f) B := by
  intro e he hb
  obtain ⟨e0, he0, heq⟩ := List.mem_map.1 he
  by_cases h : e0.1 = w
  · simp only [h, beq_self_eq_true, if_true] at heq
    subst heq
    exact hf e0.2 (hs e0 he0 (by simpa [h] using hb))
  · rw [if_neg (by simpa using h)] at heq
    subst heq
    exact hs e0 he0 hb

theorem regionSep_delN {s : Store α} {B : Nat} (p : Nat) (hs : RegionSep s B) :
    RegionSep (delN s p) B :=
  fun e he hb => hs e (List.mem_of_mem_eraseP he) hb

theorem regionSep_cons {s : Store α} {B : Nat} (p : Nat) (n : NodeR α)
    (hs : RegionSep s B) (hn : PtrGe B n.left ∧ PtrGe B n.right) :
    RegionSep ((p, n) :: s) B := by
  intro e he hb
  rcases List.mem_cons.1 he with rfl | he
  · exact hn
  · exact hs e he hb

theorem regionSep_getN {s : Store α} {B : Nat} {p : Nat} {n : NodeR α}
    (hs : RegionSep s B) (hp : B ≤ p) (h : getN s p = some n) :
    PtrGe B n.left ∧ PtrGe B n.right :=
  hs (p, n) (getN_mem h) hp

theorem mergeTail_ok_region {B : Nat} (s0 s1 : Store α) (w : Nat) (m : Option Nat)
    (s' : Store α) (r : Option Nat)
    (hs : RegionSep s1 B) (hw : B ≤ w) (hm : PtrGe B m)
    (h : mergeTail s0 s1 w m = .ok (s', r)) :
    (∀ q, q < B → getN s' q = getN s1 q) ∧ RegionSep s' B ∧ PtrGe B r := by
  have hf1 : ∀ n : NodeR α, PtrGe B n.left ∧ PtrGe B n.right →
      PtrGe B (⟨n.data, n.left, m, n.npl⟩ : NodeR α).left ∧
      PtrGe B (⟨n.data, n.left, m, n.npl⟩ : NodeR α).right :=
    fun n hn => ⟨hn.1, hm⟩
  have hf2 : ∀ n : NodeR α, PtrGe B n.left ∧ PtrGe B n.right →
      PtrGe B (⟨n.data, n.right, n.left, n.npl⟩ : NodeR α).left ∧
      PtrGe B (⟨n.data, n.right, n.left, n.npl⟩ : NodeR α).right :=
    fun n hn => ⟨hn.2, hn.1⟩
  simp only [mergeTail] at h
  split at h
  · simp at h
  · next nw hnw =>
    split at h
    · simp at h
    · next nw2 hnw2 =>
      simp only [Except.ok.injEq, Prod.mk.injEq] at h
      obtain ⟨hs', hr⟩ := h
      subst hs'
      subst hr
      constructor
      · intro q hq
        have hqw : q ≠ w := fun hc => absurd hw (by rw [← hc]; omega)
        rw [getN_setN_ne _ _ _ _ hqw]
        split
        · rw [getN_setN_ne _ _ _ _ hqw, getN_setN_ne _ _ _ _ hqw]
        · rw [getN_setN_ne _ _ _ _ hqw]
      · constructor
        · refine regionSep_setN w _ ?_ (fun n hn => ⟨hn.1, hn.2⟩)
          split
          · exact regionSep_setN w _ (regionSep_setN w _ hs hf1) hf2
          · exact regionSep_setN w _ hs hf1
        · exact hw

theorem mergeS_ok_region (ltE : α → α → Except Unit Bool) {B : Nat} :
    ∀ (fuel : Nat) (s s1 : Store α) (h1 h2 r : Option Nat),
    RegionSep s B → PtrGe B h1 → PtrGe B h2 →
    mergeS ltE fuel s h1 h2 = .ok (s1, r) →
    (∀ q, q < B → getN s1 q = getN s q) ∧ RegionSep s1 B ∧ PtrGe B r := by
  intro fuel
  induction fuel with
  | zero =>
    intro s s1 h1 h2 r hs hp1 hp2 h
    match h1, h2 with
    | none, h2 =>
      simp only [mergeS, Except.ok.injEq, Prod.mk.injEq] at h
      obtain ⟨rfl, rfl⟩ := h
      exact ⟨fun _ _ => rfl, hs, hp2⟩
    | some p1, none =>
      simp only [mergeS, Except.ok.injEq, Prod.mk.injEq] at h
      obtain ⟨rfl, rfl⟩ := h
      exact ⟨fun _ _ => rfl, hs, hp1⟩
    | some p1, some p2 => simp [mergeS] at h
  | succ fuel ih =>
    intro s s1 h1 h2 r hs hp1 hp2 h
    match h1, h2 with
    | none, h2 =>
      simp only [mergeS, Except.ok.injEq, Prod.mk.injEq] at h
      obtain ⟨rfl, rfl⟩ := h
      exact ⟨fun _ _ => rfl, hs, hp2⟩
    | some p1, none =>
      simp only [mergeS, Except.ok.injEq, Prod.mk.injEq] at h
      obtain ⟨rfl, rfl⟩ := h
      exact ⟨fun _ _ => rfl, hs, hp1⟩
    | some p1, some p2 =>
      simp only [mergeS] at h
      split at h
      · next n1 n2 hg1 hg2 =>
        split at h
        · simp at h
        · next b hb =>
          split at h
          · simp at h
          · next sm m hrec =>
            have hw : B ≤ (if b then p2 else p1) := by
              cases b <;> simpa using (by assumption : B ≤ _)
            have hwrec : getN s (if b then p2 else p1) =
                some (if b then n2 else n1) := by
              cases b <;> simp [hg1, hg2]
            have hl : B ≤ (if b then p1 else p2) := by
              cases b <;> simpa using (by assumption : B ≤ _)
            have hchild := regionSep_getN hs hw hwrec
            obtain ⟨hfr, hsep1, hm⟩ :=
              ih s sm _ (some (if b then p1 else p2)) m hs hchild.2 hl hrec
            obtain ⟨hfr2, hsep2, hr⟩ :=
              mergeTail_ok_region s sm _ m s1 r hsep1 hw hm h
            refine ⟨?_, hsep2, hr⟩
            intro q hq
            rw [hfr2 q hq, hfr q hq]
      · simp at h

/-- One public mutation of a queue. -/
inductive QOp (α : Type) where
  | push (e : α) : QOp α
  | pop : QOp α

/-- A queue together with the store its nodes live in and the allocator
counter. -/
structure QS (α : Type) where
  s : Store α
  nxt : Nat
  root : Option Nat
  sz : Nat

/-- Run one operation; when it raises, the caller observes the state the
exception left behind. -/
def stepOp (ltE : α → α → Except Unit Bool) (fuel : Nat) (st : QS α) :
    QOp α → QS α
  | .push e =>
    match pushS ltE fuel st.s st.nxt st.root st.sz e with
    | .ok (s, nx, r, z) => ⟨s, nx, r, z⟩
    | .error (s, r, z) => ⟨s, st.nxt, r, z⟩
  | .pop =>
    match popS ltE fuel st.s st.root st.sz with
    | .ok (s, r, z) => ⟨s, st.nxt, r, z⟩
    | .error (s, r, z) => ⟨s, st.nxt, r, z⟩

/-- Run a sequence of pushes and pops. -/
def runOps (ltE : α → α → Except Unit Bool) (fuel : Nat) (ops : List (QOp α))
    (st : QS α) : QS α :=
  ops.foldl (stepOp ltE fuel) st

/-- The state of a queue whose nodes all live in the region `[B, ∞)`. -/
def RegionInv (B : Nat) (st : QS α) : Prop :=
  RegionSep st.s B ∧ PtrGe B st.root ∧ B ≤ st.nxt

theorem stepOp_region (ltE : α → α → Except Unit Bool) (fuel : Nat) {B : Nat}
    {st : QS α} (op : QOp α) (hi : RegionInv B st) :
    RegionInv B (stepOp ltE fuel st op) ∧
    (∀ q, q < B → getN (stepOp ltE fuel st op).s q = getN st.s q) := by
  obtain ⟨hsep, hroot, hnxt⟩ := hi
  cases op with
  | push e =>
    match hp : pushS ltE fuel st.s st.nxt st.root st.sz e with
    | .ok (s, nx, r, z) =>
      have hstep : stepOp ltE fuel st (QOp.push e) = ⟨s, nx, r, z⟩ := by
        simp only [stepOp, hp]
      rw [hstep]
      unfold pushS at hp
      split at hp
      · next s2 r2 hrec =>
        simp only [Except.ok.injEq, Prod.mk.injEq] at hp
        obtain ⟨rfl, rfl, rfl, rfl⟩ := hp
        have hcons : RegionSep ((st.nxt, (⟨e, none, none, 1⟩ : NodeR α)) :: st.s) B :=
          regionSep_cons _ _ hsep ⟨trivial, trivial⟩
        obtain ⟨hfr, hsep2, hr⟩ := mergeS_ok_region ltE fuel _ s2 _ _ r2
          hcons hroot (by simpa [PtrGe] using hnxt) hrec
        refine ⟨⟨hsep2, hr, by show B ≤ st.nxt + 1; omega⟩, ?_⟩
        intro q hq
        show getN s2 q = getN st.s q
        rw [hfr q hq, getN_cons_ne _ _ _ _ (by omega)]
      · simp at hp
    | .error (s, r, z) =>
      have hstep : stepOp ltE fuel st (QOp.push e) = ⟨s, st.nxt, r, z⟩ := by
        simp only [stepOp, hp]
      rw [hstep]
      obtain ⟨rfl, rfl, rfl⟩ :=
        pushS_error_eq ltE fuel st.s s st.nxt st.root r st.sz z e hp
      exact ⟨⟨hsep, hroot, hnxt⟩, fun _ _ => rfl⟩
  | pop =>
    match hp : popS ltE fuel st.s st.root st.sz with
    | .ok (s, r, z) =>
      have hstep : stepOp ltE fuel st QOp.pop = ⟨s, st.nxt, r, z⟩ := by
        simp only [stepOp, hp]
      rw [hstep]
      unfold popS at hp
      split at hp
      · simp at hp
      · split at hp
        · simp at hp
        · next p hproot =>
          split at hp
          · simp at hp
          · next n hg =>
            split at hp
            · simp at hp
            · next s1 r1 hrec =>
              simp only [Except.ok.injEq, Prod.mk.injEq] at hp
              obtain ⟨rfl, rfl, rfl⟩ := hp
              have hpB : B ≤ p := by rw [hproot] at hroot; exact hroot
              have hchild := regionSep_getN hsep hpB hg
              obtain ⟨hfr, hsep1, hr⟩ := mergeS_ok_region ltE fuel _ s1 _ _ r1
                hsep hchild.1 hchild.2 hrec
              refine ⟨⟨regionSep_delN p hsep1, hr, hnxt⟩, ?_⟩
              intro q hq
              show getN (delN s1 p) q = getN st.s q
              rw [getN_delN_ne _ _ _ (by omega), hfr q hq]
    | .error (s, r, z) =>
      have hstep : stepOp ltE fuel st QOp.pop = ⟨s, st.nxt, r, z⟩ := by
        simp only [stepOp, hp]
      rw [hstep]
      obtain ⟨rfl, rfl, rfl⟩ := popS_error_eq ltE fuel st.s s st.root r st.sz z hp
      exact ⟨⟨hsep, hroot, hnxt⟩, fun _ _ => rfl⟩

theorem runOps_region (ltE : α → α → Except Unit Bool) (fuel : Nat) {B : Nat}
    (ops : List (QOp α)) (st : QS α) (hi : RegionInv B st) :
    RegionInv B (runOps ltE fuel ops st) ∧
    (∀ q, q < B → getN (runOps ltE fuel ops st).s q = getN st.s q) := by
  induction ops generalizing st with
  | nil => exact ⟨hi, fun _ _ => rfl⟩
  | cons op ops ih =>
    obtain ⟨hi1, hfr1⟩ := stepOp_region ltE fuel op hi
    obtain ⟨hi2, hfr2⟩ := ih _ hi1
    refine ⟨hi2, ?_⟩
    intro q hq
    calc getN (runOps ltE fuel (op :: ops) st).s q
        = getN (stepOp ltE fuel st op).s q := hfr2 q hq
      _ = getN st.s q := hfr1 q hq

/-! ### Deep copy on the store -/

/-- Read the tree rooted at `p` back out of the store (fuel-bounded; on
tree-shaped stores any fuel at least the tree height yields the tree). -/
def readTree (s : Store α) : Nat → Option Nat → Node α
  | _, none => .nil
  | 0, some _ => .nil
  | F+1, some p =>
    match getN s p with
    | none => .nil
    | some n => .node n.data (readTree s F n.left) (readTree s F n.right) n.npl

/-- A pointer that is null or bound in the store. -/
def PtrOk (s : Store α) : Option Nat → Prop
  | none => True
  | some p => ∃ n, getN s p = some n

/-- Every record's children are null or bound: pointer walks stay on
bound keys. -/
def StoreClosed (s : Store α) : Prop :=
  ∀ e ∈ s, PtrOk s e.2.left ∧ PtrOk s e.2.right

/-- A pointer that is null or inside `[lo, hi)`. -/
def PtrBetween (lo hi : Nat) : Option Nat → Prop
  | none => True
  | some p => lo ≤ p ∧ p < hi

/-- The records bound at keys in `[lo, hi)` only point inside `[lo, hi)`
(or to null). -/
def RegionBetweenG (s : Store α) (lo hi : Nat) : Prop :=
  ∀ q n, lo ≤ q → q < hi → getN s q = some n →
    PtrBetween lo hi n.left ∧ PtrBetween lo hi n.right

/-- All keys of the store lie below `bnd` (the allocation counter). -/
def KeysLt (s : Store α) (bnd : Nat) : Prop := ∀ e ∈ s, e.1 < bnd

theorem ptrOk_setN {s : Store α} {c : Option Nat} (w : Nat) (f : NodeR α → NodeR α)
    (h : PtrOk s c) : PtrOk (setN s w f) c := by
  cases c with
  | none => trivial
  | some q =>
    obtain ⟨n, hn⟩ := h
    by_cases hq : q = w
    · subst hq
      exact ⟨f n, by rw [getN_setN_self, hn]; rfl⟩
    · exact ⟨n, by rw [getN_setN_ne _ _ _ _ hq, hn]⟩

theorem getN_keysLt {s : Store α} {bnd q : Nat} {n : NodeR α}
    (hk : KeysLt s bnd) (h : getN s q = some n) : q < bnd :=
  hk (q, n) (getN_mem h)

theorem keysLt_setN {s : Store α} {bnd : Nat} (w : Nat) (f : NodeR α → NodeR α)
    (hk : KeysLt s bnd) : KeysLt (setN s w f) bnd := by
  intro e he
  obtain ⟨e0, he0, heq⟩ := List.mem_map.1 he
  have := hk e0 he0
  subst heq
  split <;> simpa using this

/-- `readTree` only looks at the bound keys of a closed store: any store
agreeing there reads back the same tree. -/
theorem readTree_congr {s s' : Store α}
    (hagree : ∀ q n, getN s q = some n → getN s' q = some n)
    (hclosed : StoreClosed s) :
    ∀ (F : Nat) (p : Option Nat), PtrOk s p → readTree s' F p = readTree s F p := by
  intro F
  induction F with
  | zero => intro p _; cases p <;> rfl
  | succ F ih =>
    intro p hp
    cases p with
    | none => rfl
    | some q =>
      obtain ⟨n, hn⟩ := hp
      have hn' := hagree q n hn
      have hch := hclosed (q, n) (getN_mem hn)
      simp only [readTree, hn, hn']
      rw [ih n.left hch.1, ih n.right hch.2]

/-- `readTree` from a pointer inside a closed segment only looks at the
segment: any store agreeing on `[lo, hi)` reads back the same tree. -/
theorem readTree_congr_between {s s' : Store α} {lo hi : Nat}
    (hsep : RegionBetweenG s lo hi)
    (hagree : ∀ q, lo ≤ q → q < hi → getN s' q = getN s q) :
    ∀ (F : Nat) (p : Option Nat), PtrBetween lo hi p →
      readTree s' F p = readTree s F p := by
  intro F
  induction F with
  | zero => intro p _; cases p <;> rfl
  | succ F ih =>
    intro p hp
    cases p with
    | none => rfl
    | some q =>
      obtain ⟨h1, h2⟩ := hp
      have hq := hagree q h1 h2
      cases hn : getN s q with
      | none => simp only [readTree, hn, hq ▸ hn]
      | some n =>
        have hch := hsep q n h1 h2 hn
        rw [hn] at hq
        simp only [readTree, hn, hq]
        rw [ih n.left hch.1, ih n.right hch.2]

/-- `priority_queue::copy` on the store: allocate the copy of the node at
`next` (the `Node` constructor makes a leaf with `npl = 1`), copy the left
child, then the right child, then overwrite `npl` verbatim.  `fuel` bounds
the recursion (any fuel at least the tree height suffices on tree-shaped
stores); `none` is out-of-fuel or a dangling source pointer.  Returns
(store, copy root, new allocation counter). -/
def copyS : Nat → Store α → Option Nat → Nat → Option (Store α × Option Nat × Nat)
  | _, s, none, next => some (s, none, next)
  | 0, _, some _, _ => none
  | fuel+1, s, some p, next =>
    match getN s p with
    | none => none
    | some n =>
      let s1 := (next, (⟨n.data, none, none, 1⟩ : NodeR α)) :: s
      match copyS fuel s1 n.left (next+1) with
      | none => none
      | some (s2, cl, next2) =>
        let s3 := setN s2 next (fun m => ⟨m.data, cl, m.right, m.npl⟩)
        match copyS fuel s3 n.right next2 with
        | none => none
        | some (s4, cr, next3) =>
          some (setN (setN s4 next (fun m => ⟨m.data, m.left, cr, m.npl⟩)) next
                  (fun m => ⟨m.data, m.left, m.right, n.npl⟩), some next, next3)

theorem ptrBetween_mono {lo hi lo' hi' : Nat} {p : Option Nat}
    (h1 : lo' ≤ lo) (h2 : hi ≤ hi') (h : PtrBetween lo hi p) :
    PtrBetween lo' hi' p := by
  cases p with
  | none => trivial
  | some q => exact ⟨le_trans h1 h.1, lt_of_lt_of_le h.2 h2⟩

theorem ptrGe_of_between {lo hi B : Nat} {p : Option Nat}
    (hB : B ≤ lo) (h : PtrBetween lo hi p) : PtrGe B p := by
  cases p with
  | none => trivial
  | some q => exact le_trans hB h.1

theorem ptrOk_cons_fresh {s : Store α} {bnd b2 : Nat} {m : NodeR α} {c : Option Nat}
    (hk : KeysLt s bnd) (hb : bnd ≤ b2) (h : PtrOk s c) :
    PtrOk ((b2, m) :: s) c := by
  cases c with
  | none => trivial
  | some q =>
    obtain ⟨n, hn⟩ := h
    have hq : q < bnd := getN_keysLt hk hn
    exact ⟨n, by rw [getN_cons_ne _ _ _ _ (by omega), hn]⟩

theorem storeClosed_setN {s : Store α} (w : Nat) (f : NodeR α → NodeR α)
    (hc : StoreClosed s)
    (hf : ∀ n : NodeR α, PtrOk s n.left ∧ PtrOk s n.right →
      PtrOk s (f n).left ∧ PtrOk s (f n).right) :
    StoreClosed (setN s w f) := by
  intro e he
  obtain ⟨e0, he0, heq⟩ := List.mem_map.1 he
  by_cases h : e0.1 = w
  · simp only [h, beq_self_eq_true, if_true] at heq
    subst heq
    have := hf e0.2 (hc e0 he0)
    exact ⟨ptrOk_setN w f this.1, ptrOk_setN w f this.2⟩
  · rw [if_neg (by simpa using h)] at heq
    subst heq
    have := hc e0 he0
    exact ⟨ptrOk_setN w f this.1, ptrOk_setN w f this.2⟩

theorem copyS_spec :
    ∀ (fuel : Nat) (s s' : Store α) (p p' : Option Nat) (next next' : Nat),
    KeysLt s next → StoreClosed s → PtrOk s p →
    copyS fuel s p next = some (s', p', next') →
    next ≤ next' ∧
    KeysLt s' next' ∧
    (∀ q, q < next → getN s' q = getN s q) ∧
    StoreClosed s' ∧
    PtrOk s' p' ∧
    PtrBetween next next' p' ∧
    (∀ B, B ≤ next → RegionSep s B → RegionSep s' B) ∧
    RegionBetweenG s' next next' ∧
    (∀ F, readTree s' F p' = readTree s F p) := by
  intro fuel
  induction fuel with
  | zero =>
    intro s s' p p' next next' hk hc hp h
    cases p with
    | none =>
      simp only [copyS, Option.some.injEq, Prod.mk.injEq] at h
      obtain ⟨rfl, rfl, rfl⟩ := h
      exact ⟨le_refl _, hk, fun _ _ => rfl, hc, trivial, trivial, fun B _ hs => hs,
        fun q n hq1 hq2 _ => absurd (lt_of_le_of_lt hq1 hq2) (lt_irrefl _),
        fun F => rfl⟩
    | some q => simp [copyS] at h
  | succ fuel ih =>
    intro s s' p p' next next' hk hc hp h
    cases p with
    | none =>
      simp only [copyS, Option.some.injEq, Prod.mk.injEq] at h
      obtain ⟨rfl, rfl, rfl⟩ := h
      exact ⟨le_refl _, hk, fun _ _ => rfl, hc, trivial, trivial, fun B _ hs => hs,
        fun q n hq1 hq2 _ => absurd (lt_of_le_of_lt hq1 hq2) (lt_irrefl _),
        fun F => rfl⟩
    | some p =>
      simp only [copyS] at h
      split at h
      · simp at h
      · next n hg =>
        split at h
        · simp at h
        · next s2 cl next2 hcl =>
          split at h
          · simp at h
          · next s4 cr next3 hcr =>
            simp only [Option.some.injEq, Prod.mk.injEq] at h
            obtain ⟨rfl, rfl, rfl⟩ := h
            -- the store after allocating the copy of the node itself
            have hpn := hc (p, n) (getN_mem hg)
            have hk1 : KeysLt ((next, (⟨n.data, none, none, 1⟩ : NodeR α)) :: s) (next + 1) := by
              intro e he
              rcases List.mem_cons.1 he with rfl | he
              · omega
              · have := hk e he; omega
            have hc1 : StoreClosed ((next, (⟨n.data, none, none, 1⟩ : NodeR α)) :: s) := by
              intro e he
              rcases List.mem_cons.1 he with rfl | he
              · exact ⟨trivial, trivial⟩
              · have := hc e he
                exact ⟨ptrOk_cons_fresh hk (le_refl _) this.1,
                  ptrOk_cons_fresh hk (le_refl _) this.2⟩
            have hp1 : PtrOk ((next, (⟨n.data, none, none, 1⟩ : NodeR α)) :: s) n.left :=
              ptrOk_cons_fresh hk (le_refl _) hpn.1
            obtain ⟨ha1, hb1, hfr1, hd1, hh1, he1, hf1, hg1, hrd1⟩ :=
              ih _ s2 n.left cl (next + 1) next2 hk1 hc1 hp1 hcl
            -- transfer a binding of the original store into s2
            have hold2 : ∀ q m, getN s q = some m → getN s2 q = some m := by
              intro q m hm
              have hq : q < next := getN_keysLt hk hm
              rw [hfr1 q (by omega), getN_cons_ne _ _ _ _ (by omega)]
              exact hm
            -- the store after hooking up the left copy
            have hk3 : KeysLt (setN s2 next (fun m => ⟨m.data, cl, m.right, m.npl⟩)) next2 :=
              keysLt_setN _ _ hb1
            have hclOk2 : PtrOk s2 cl := hh1
            have hc3 : StoreClosed (setN s2 next (fun m => ⟨m.data, cl, m.right, m.npl⟩)) :=
              storeClosed_setN _ _ hd1 (fun m hm => ⟨hclOk2, hm.2⟩)
            have hp3 : PtrOk (setN s2 next (fun m => ⟨m.data, cl, m.right, m.npl⟩)) n.right := by
              cases hnr : n.right with
              | none => trivial
              | some qr =>
                have := hpn.2
                rw [hnr] at this
                obtain ⟨m, hm⟩ := this
                exact ⟨m, by rw [getN_setN_ne _ _ _ _
                  (by have := getN_keysLt hk hm; omega), hold2 qr m hm]⟩
            obtain ⟨ha2, hb2, hfr2, hd2, hh2, he2, hf2, hg2, hrd2⟩ :=
              ih _ s4 n.right cr next2 next3 hk3 hc3 hp3 hcr
            -- the record finally stored at `next`
            have hroot : getN (setN (setN s4 next (fun m => ⟨m.data, m.left, cr, m.npl⟩)) next
                (fun m => ⟨m.data, m.left, m.right, n.npl⟩)) next =
                some ⟨n.data, cl, cr, n.npl⟩ := by
              have e2 : getN s2 next = some (⟨n.data, none, none, 1⟩ : NodeR α) := by
                rw [hfr1 next (by omega), getN_cons, if_pos rfl]
              have e3 : getN (setN s2 next (fun m => ⟨m.data, cl, m.right, m.npl⟩)) next =
                  some (⟨n.data, cl, none, 1⟩ : NodeR α) := by
                rw [getN_setN_self, e2]; rfl
              have e4 : getN s4 next = some (⟨n.data, cl, none, 1⟩ : NodeR α) := by
                rw [hfr2 next (by omega)]; exact e3
              rw [getN_setN_self, getN_setN_self, e4]; rfl
            -- agreement with s2 on the left segment and with s4 on the right segment
            have hagl : ∀ q, next + 1 ≤ q → q < next2 →
                getN (setN (setN s4 next (fun m => ⟨m.data, m.left, cr, m.npl⟩)) next
                  (fun m => ⟨m.data, m.left, m.right, n.npl⟩)) q = getN s2 q := by
              intro q hq1 hq2
              rw [getN_setN_ne _ _ _ _ (by omega), getN_setN_ne _ _ _ _ (by omega),
                hfr2 q hq2, getN_setN_ne _ _ _ _ (by omega)]
            have hagr : ∀ q, next2 ≤ q → q < next3 →
                getN (setN (setN s4 next (fun m => ⟨m.data, m.left, cr, m.npl⟩)) next
                  (fun m => ⟨m.data, m.left, m.right, n.npl⟩)) q = getN s4 q := by
              intro q hq1 hq2
              rw [getN_setN_ne _ _ _ _ (by omega), getN_setN_ne _ _ _ _ (by omega)]
            refine ⟨by omega, ?_, ?_, ?_, ?_, ?_, ?_, ?_, ?_⟩
            · exact keysLt_setN _ _ (keysLt_setN _ _ hb2)
            · intro q hq
              rw [getN_setN_ne _ _ _ _ (by omega), getN_setN_ne _ _ _ _ (by omega),
                hfr2 q (by omega), getN_setN_ne _ _ _ _ (by omega),
                hfr1 q (by omega), getN_cons_ne _ _ _ _ (by omega)]
            · refine storeClosed_setN _ _ (storeClosed_setN _ _ hd2 ?_) ?_
              · exact fun m hm => ⟨hm.1, hh2⟩
              · exact fun m hm => ⟨hm.1, hm.2⟩
            · exact ⟨_, hroot⟩
            · exact ⟨le_refl _, by omega⟩
            · intro B hB hs
              have r1 : RegionSep ((next, (⟨n.data, none, none, 1⟩ : NodeR α)) :: s) B :=
                regionSep_cons _ _ hs ⟨trivial, trivial⟩
              have r2 : RegionSep s2 B := hf1 B (by omega) r1
              have r3 : RegionSep (setN s2 next (fun m => ⟨m.data, cl, m.right, m.npl⟩)) B :=
                regionSep_setN _ _ r2 (fun m hm => ⟨ptrGe_of_between (by omega) he1, hm.2⟩)
              have r4 : RegionSep s4 B := hf2 B (by omega) r3
              refine regionSep_setN _ _ (regionSep_setN _ _ r4 ?_) ?_
              · exact fun m hm => ⟨hm.1, ptrGe_of_between (by omega) he2⟩
              · exact fun m hm => ⟨hm.1, hm.2⟩
            · intro q m hq1 hq2 hqget
              rcases Nat.lt_trichotomy q next2 with hlt | heq2 | hgt
              · by_cases hqn : q = next
                · subst hqn
                  rw [hroot] at hqget
                  cases hqget
                  exact ⟨ptrBetween_mono (by omega) (by omega) he1,
                    ptrBetween_mono (by omega) (by omega) he2⟩
                · have hq1' : next + 1 ≤ q := by omega
                  rw [hagl q hq1' hlt] at hqget
                  have := hg1 q m hq1' hlt hqget
                  exact ⟨ptrBetween_mono (by omega) (by omega) this.1,
                    ptrBetween_mono (by omega) (by omega) this.2⟩
              · subst heq2
                rw [hagr q (le_refl _) hq2] at hqget
                have := hg2 q m (le_refl _) hq2 hqget
                exact ⟨ptrBetween_mono (by omega) (by omega) this.1,
                  ptrBetween_mono (by omega) (by omega) this.2⟩
              · rw [hagr q (by omega) hq2] at hqget
                have := hg2 q m (by omega) hq2 hqget
                exact ⟨ptrBetween_mono (by omega) (by omega) this.1,
                  ptrBetween_mono (by omega) (by omega) this.2⟩
            · intro F
              cases F with
              | zero => rfl
              | succ F =>
                have hL : readTree (setN (setN s4 next (fun m => ⟨m.data, m.left, cr, m.npl⟩))
                    next (fun m => ⟨m.data, m.left, m.right, n.npl⟩)) F cl =
                    readTree s F n.left := by
                  rw [readTree_congr_between hg1 hagl F cl he1, hrd1 F]
                  exact readTree_congr (fun q m hm => by
                      rw [getN_cons_ne _ _ _ _ (by have := getN_keysLt hk hm; omega)]
                      exact hm)
                    hc F n.left hpn.1
                have hR : readTree (setN (setN s4 next (fun m => ⟨m.data, m.left, cr, m.npl⟩))
                    next (fun m => ⟨m.data, m.left, m.right, n.npl⟩)) F cr =
                    readTree s F n.right := by
                  rw [readTree_congr_between hg2 hagr F cr he2, hrd2 F]
                  exact readTree_congr (fun q m hm => by
                      rw [getN_setN_ne _ _ _ _ (by have := getN_keysLt hk hm; omega)]
                      exact hold2 q m hm)
                    hc F n.right hpn.2
                simp only [readTree, hroot, hg, hL, hR]

/-! ### Support lemmas and fixtures for the claims -/

/-- Did the call raise? -/
def isErr {ε β : Type} : Except ε β → Bool
  | .error _ => true
  | .ok _ => false

instance ptrOkDec (s : Store α) : (p : Option Nat) → Decidable (PtrOk s p)
  | none => .isTrue trivial
  | some q =>
    match h : getN s q with
    | some n => .isTrue ⟨n, h⟩
    | none => .isFalse (fun hc => by
        obtain ⟨n, hn⟩ := hc
        rw [h] at hn
        cases hn)

theorem count_eq_zero {t : Node α} : count t = 0 ↔ t = .nil := by
  cases t <;> simp [count]

theorem reachable_pushAll (lt : α → α → Bool) (q : PQ α) (es : List α)
    (hq : Reachable lt q) : Reachable lt (pushAll lt q es) := by
  induction es generalizing q with
  | nil => exact hq
  | cons e es ih => exact ih _ (Reachable.push q e hq)

theorem elemsM_pushQ (lt : α → α → Bool) (q : PQ α) (e : α) :
    elemsM (pushQ lt q e).root = elemsM q.root + {e} := by
  show elemsM (merge lt q.root (.node e .nil .nil 1)) = _
  rw [elemsM_merge]
  simp [elemsM]

theorem elemsM_pushAll (lt : α → α → Bool) (q : PQ α) (es : List α) :
    elemsM (pushAll lt q es).root = elemsM q.root + ↑es := by
  induction es generalizing q with
  | nil => simp [pushAll]
  | cons e es ih =>
    show elemsM (pushAll lt (pushQ lt q e) es).root = _
    rw [ih, elemsM_pushQ, ← Multiset.cons_coe, add_assoc]
    congr 1

theorem sz_pushAll (lt : α → α → Bool) (q : PQ α) (es : List α) :
    (pushAll lt q es).sz = q.sz + es.length := by
  induction es generalizing q with
  | nil => simp [pushAll]
  | cons e es ih =>
    show (pushAll lt (pushQ lt q e) es).sz = _
    rw [ih]
    show q.sz + 1 + es.length = _
    simp only [List.length_cons]
    omega

theorem regionSep_of_keysLt {s : Store α} {B : Nat} (hk : KeysLt s B) :
    RegionSep s B := by
  intro e he hb
  exact absurd (hk e he) (by omega)

/-- The comparator of the concrete examples: `<` on `Int` (max-queue). -/
def ltZ : Int → Int → Bool := fun a b => decide (a < b)

/-- A small decidable strict order for witnesses. -/
def ltF : Fin 3 → Fin 3 → Bool := fun a b => decide (a < b)

/-- An always-throwing comparator, for the exception-safety witnesses. -/
def ltBoom : Int → Int → Except Unit Bool := fun _ _ => .error ()

/-- A three-node heap store: root 0 (data 5) with children 1 (data 3) and
2 (data 4). -/
def cStore : Store Int :=
  [(0, ⟨5, some 1, some 2, 1⟩), (1, ⟨3, none, none, 1⟩), (2, ⟨4, none, none, 1⟩)]

/-- A two-queue store: two singleton roots 0 and 1. -/
def cStore2 : Store Int := [(0, ⟨5, none, none, 1⟩), (1, ⟨7, none, none, 1⟩)]

/-- A concrete two-element queue over `Fin 3`, built by pushes. -/
def wQ2 : PQ (Fin 3) := pushQ ltF (pushQ ltF emptyQ 1) 2

/-- A concrete empty queue over `Fin 3` for witnesses. -/
def wEmpty : PQ (Fin 3) := emptyQ

/-- A concrete empty queue over `Int` for witnesses. -/
def wEmptyZ : PQ Int := emptyQ

/-- The store `copyS` produces when copying `cStore`'s tree at counter 3. -/
def cStoreCopy : Store Int :=
  [(5, ⟨4, none, none, 1⟩), (4, ⟨3, none, none, 1⟩), (3, ⟨5, some 4, some 5, 1⟩)] ++ cStore

/-! ### The claims -/

/-- C1: for every sequence of push operations on a queue (no pops), `top()`
succeeds and returns the comparator-maximum of the held elements: an
element that is not less, under the supplied strict-weak-order comparator,
than any held element. -/
theorem claim_C1 (lt : α → α → Bool)
    (hasym : ∀ a b, lt a b = true → lt b a = false)
    (htrans : ∀ a b c, lt a b = false → lt b c = false → lt a c = false)
    (es : List α) (hne : es ≠ []) :
    isErr (topQ (pushAll lt emptyQ es)) = false ∧
    ∀ t x, topQ (pushAll lt emptyQ es) = .ok t →
      x ∈ elemsM (pushAll lt emptyQ es).root → lt t x = false := by
  have hreach := reachable_pushAll lt emptyQ es Reachable.empty
  have hheap := heapOk_reachable hasym htrans hreach
  have hszlen : (pushAll lt emptyQ es).sz = es.length := by
    rw [sz_pushAll]; simp [emptyQ]
  have hszne : ¬ (pushAll lt emptyQ es).sz = 0 := by
    rw [hszlen]
    intro hc
    exact hne (List.eq_nil_of_length_eq_zero hc)
  have hcnt := size_reachable hreach
  cases hroot : (pushAll lt emptyQ es).root with
  | nil =>
    rw [hroot] at hcnt
    simp only [count] at hcnt
    exact absurd hcnt hszne
  | node d l r n =>
    have htop : topQ (pushAll lt emptyQ es) = .ok d := by
      unfold topQ
      rw [if_neg hszne, hroot]
    constructor
    · rw [htop]; rfl
    · intro t x ht hx
      rw [htop] at ht
      cases ht
      rw [hroot] at hheap
      obtain ⟨hl, hr, dl, dr⟩ := hheap
      have hdd : lt d d = false := by
        cases hdd : lt d d with
        | false => rfl
        | true =>
          have hc := hasym d d hdd
          rw [hdd] at hc
          exact hc
      rcases (by simpa [elemsM] using hx : x = d ∨ x ∈ elemsM l ∨ x ∈ elemsM r)
        with rfl | hx2 | hx2
      · exact hdd
      · exact dl _ hx2
      · exact dr _ hx2

/-- C1 witness: three pushes over `Fin 3` with `<`; `top()` does not
raise, and the top is not less than the element 0 held in the queue. -/
theorem claim_C1_witness :
    isErr (topQ (pushAll ltF emptyQ [0, 2, 1])) = false :=
  (claim_C1 ltF (by decide) (by decide) [0, 2, 1] (by decide)).1

/-- C2: for every reachable queue, repeatedly taking `top()` then `pop()`
until empty (`drain`) yields the held elements (as a multiset) in
non-increasing comparator order — each drained element is not less than
the next — and the number of drained elements is exactly `size()`, so
`size()` reaches 0 exactly when the held elements are exhausted. -/
theorem claim_C2 (lt : α → α → Bool)
    (hasym : ∀ a b, lt a b = true → lt b a = false)
    (htrans : ∀ a b c, lt a b = false → lt b c = false → lt a c = false)
    (q : PQ α) (hq : Reachable lt q) :
    List.Chain' (fun a b => lt a b = false) (drain lt q.root) ∧
    (drain lt q.root : Multiset α) = elemsM q.root ∧
    (drain lt q.root).length = q.sz :=
  ⟨chain_drain lt hasym htrans _ (heapOk_reachable hasym htrans hq),
   elemsM_drain lt _,
   by rw [length_drain]; exact (size_reachable hq).symm⟩

/-- C2 witness: a queue built by two pushes over `Fin 3`; the drain holds
exactly the queue's elements and has length `size()`. -/
theorem claim_C2_witness :
    (drain ltF wQ2.root : Multiset (Fin 3)) = elemsM wQ2.root ∧
    (drain ltF wQ2.root).length = wQ2.sz :=
  ⟨(claim_C2 ltF (by decide) (by decide) wQ2
      (Reachable.push _ 2 (Reachable.push _ 1 Reachable.empty))).2.1,
   (claim_C2 ltF (by decide) (by decide) wQ2
      (Reachable.push _ 2 (Reachable.push _ 1 Reachable.empty))).2.2⟩

/-- C3: merging two distinct queues leaves the recipient holding exactly
the multiset union of the two queues' elements with `sz` the sum of the
former sizes, and leaves the donor a valid empty queue; concretely, with
elements {1,5,3} and {4,2} under numeric max-ordering the result has size
5, top 5 and drain order 5,4,3,2,1, and the donor ends empty. -/
theorem claim_C3 (lt : α → α → Bool) (a b : PQ α) :
    ((mergeQ lt false a b).1.sz = a.sz + b.sz ∧
     elemsM (mergeQ lt false a b).1.root = elemsM a.root + elemsM b.root ∧
     (mergeQ lt false a b).2 = emptyQ) ∧
    ((mergeQ ltZ false (pushAll ltZ emptyQ [1, 5, 3]) (pushAll ltZ emptyQ [4, 2])).1.sz = 5 ∧
     topQ (mergeQ ltZ false (pushAll ltZ emptyQ [1, 5, 3]) (pushAll ltZ emptyQ [4, 2])).1 =
       .ok 5 ∧
     drain ltZ (mergeQ ltZ false (pushAll ltZ emptyQ [1, 5, 3])
       (pushAll ltZ emptyQ [4, 2])).1.root = [5, 4, 3, 2, 1] ∧
     (mergeQ ltZ false (pushAll ltZ emptyQ [1, 5, 3]) (pushAll ltZ emptyQ [4, 2])).2 =
       emptyQ) := by
  constructor
  · refine ⟨rfl, ?_, rfl⟩
    show elemsM (merge lt a.root b.root) = _
    rw [elemsM_merge]
  · refine ⟨?_, ?_, ?_, rfl⟩
    · simp [mergeQ, pushAll, pushQ, emptyQ, merge, ltZ, getNPL]
    · simp [mergeQ, pushAll, pushQ, emptyQ, merge, topQ, ltZ, getNPL]
    · simp [mergeQ, pushAll, pushQ, emptyQ, merge, drain, ltZ, getNPL]

/-- C4: every queue state reachable through the public interface (push,
pop, queue merge, copy construction, assignment) satisfies, at every node,
the leftist property `NPL(left) ≥ NPL(right)` and the stored-npl equation
`npl = NPL(right child) + 1` (absent child contributing 0, a fresh leaf
having npl 1). -/
theorem claim_C4 (lt : α → α → Bool) (q : PQ α) (hq : Reachable lt q) :
    LeftistOkR q.root :=
  leftistOk_iff_leftistOkR.1 (leftistOk_reachable hq)

/-- C4 witness: the invariant holds for a concrete queue built by two
pushes. -/
theorem claim_C4_witness : LeftistOkR wQ2.root :=
  claim_C4 ltF wQ2 (Reachable.push _ 2 (Reachable.push _ 1 Reachable.empty))

/-- C5: strong exception safety of mutation under a throwing comparator.
Whenever the merge step inside `push(e)` raises, the freshly allocated
node is released and the observable state (store, root, `sz`) is exactly
as before the call; and whenever the tree merge inside `A.merge(B)` (with
`A` and `B` distinct) raises, both queues and the store are left exactly
as they were. -/
theorem claim_C5 (ltE : α → α → Except Unit Bool) (fuel : Nat) (s : Store α)
    (next : Nat) (root : Option Nat) (sz : Nat) (e : α)
    (rootA rootB : Option Nat) (szA szB : Nat)
    (hpush : isErr (pushS ltE fuel s next root sz e) = true)
    (hmerge : isErr (mergeQS ltE fuel s false rootA szA rootB szB) = true) :
    pushS ltE fuel s next root sz e = .error (s, root, sz) ∧
    mergeQS ltE fuel s false rootA szA rootB szB =
      .error (s, (rootA, szA), (rootB, szB)) := by
  constructor
  · match hp : pushS ltE fuel s next root sz e with
    | .ok v => rw [hp] at hpush; simp [isErr] at hpush
    | .error (s', r', sz') =>
      obtain ⟨rfl, rfl, rfl⟩ := pushS_error_eq ltE fuel s s' next root r' sz sz' e hp
      rfl
  · match hm : mergeQS ltE fuel s false rootA szA rootB szB with
    | .ok v => rw [hm] at hmerge; simp [isErr] at hmerge
    | .error (s', a', b') =>
      obtain ⟨rfl, rfl, rfl⟩ :=
        mergeQS_error_eq ltE fuel s s' false rootA rootB szA szB a' b' hm
      rfl

/-- C5 witness: with an always-throwing comparator on a two-queue store,
a failing `push` and a failing queue merge both leave the state exactly
as it was. -/
theorem claim_C5_witness :
    pushS ltBoom 9 cStore2 2 (some 0) 1 7 = .error (cStore2, some 0, 1) ∧
    mergeQS ltBoom 9 cStore2 false (some 0) 1 (some 1) 1 =
      .error (cStore2, (some 0, 1), (some 1, 1)) :=
  claim_C5 ltBoom 9 cStore2 2 (some 0) 1 7 (some 0) (some 1) 1 1
    (by decide) (by decide)

/-- C6: on a queue whose `sz` counts its nodes, `top()` and `pop()` raise
`container_is_empty` exactly when `size() == 0`, and the failing call
leaves the queue unchanged (the error value of `popQ` carries the queue
as the exception leaves it). -/
theorem claim_C6 (lt : α → α → Bool) (q : PQ α) (hv : q.sz = count q.root) :
    (isErr (topQ q) = true ↔ q.sz = 0) ∧
    (isErr (popQ lt q) = true ↔ q.sz = 0) ∧
    (q.sz = 0 → topQ q = .error () ∧ popQ lt q = .error q) := by
  by_cases hsz : q.sz = 0
  · refine ⟨?_, ?_, fun _ => ⟨?_, ?_⟩⟩ <;> simp [topQ, popQ, hsz, isErr]
  · have hne : ¬ q.root = .nil := by
      intro hc
      rw [hc] at hv
      simp only [count] at hv
      exact hsz hv
    cases hroot : q.root with
    | nil => exact absurd hroot hne
    | node d l r n =>
      have ht : topQ q = .ok d := by
        unfold topQ; rw [if_neg hsz, hroot]
      have hp : popQ lt q = .ok ⟨merge lt l r, q.sz - 1⟩ := by
        unfold popQ; rw [if_neg hsz, hroot]
      refine ⟨?_, ?_, fun hc => absurd hc hsz⟩
      · rw [ht]; simp [isErr, hsz]
      · rw [hp]; simp [isErr, hsz]

/-- C6 witness: the empty queue; both `top()` and `pop()` raise and leave
the state unchanged. -/
theorem claim_C6_witness :
    (isErr (topQ wEmpty) = true ↔ wEmpty.sz = 0) ∧
    (isErr (popQ ltF wEmpty) = true ↔ wEmpty.sz = 0) ∧
    (wEmpty.sz = 0 → topQ wEmpty = .error () ∧ popQ ltF wEmpty = .error wEmpty) :=
  claim_C6 ltF wEmpty rfl

/-- C7: self-merge is a no-op: `q.merge(q)` (the `this == &other` check
firing) leaves the pair of queues, the size and the drain order
unchanged. -/
theorem claim_C7 (lt : α → α → Bool) (q : PQ α) :
    mergeQ lt true q q = (q, q) ∧
    (mergeQ lt true q q).1.sz = q.sz ∧
    drain lt (mergeQ lt true q q).1.root = drain lt q.root :=
  ⟨rfl, rfl, rfl⟩

/-- C8: copy construction is a deep copy.  Functionally, the copy equals
the original (same size, same drain order, every node's data, children
and stored npl reproduced verbatim).  On the store, `copyS` reads back
the same tree as the original, leaves every original binding untouched,
and any later sequence of `push`/`pop` mutations of the copy leaves what
the original's root reads back unchanged (deep-copy isolation). -/
theorem claim_C8 (lt : α → α → Bool) (q : PQ α)
    (ltE : α → α → Except Unit Bool) (fuel fc : Nat) (s s' : Store α)
    (rootO rootC : Option Nat) (next next' szC : Nat) (ops : List (QOp α))
    (hk : KeysLt s next) (hc : StoreClosed s) (hp : PtrOk s rootO)
    (hcopy : copyS fc s rootO next = some (s', rootC, next')) :
    (copyQ q = q ∧ (copyQ q).sz = q.sz ∧ drain lt (copyQ q).root = drain lt q.root) ∧
    (∀ F, readTree s' F rootC = readTree s F rootO) ∧
    (∀ p, p < next → getN s' p = getN s p) ∧
    (∀ F, readTree (runOps ltE fuel ops ⟨s', next', rootC, szC⟩).s F rootO =
       readTree s F rootO) := by
  obtain ⟨ha, hb, hfr, hd, hh, he, hfB, hbet, hrd⟩ :=
    copyS_spec fc s s' rootO rootC next next' hk hc hp hcopy
  have hfun : copyQ q = q := by
    show (⟨copy q.root, q.sz⟩ : PQ α) = q
    rw [copy_eq]
  refine ⟨⟨hfun, by rw [hfun], by rw [hfun]⟩, hrd, hfr, ?_⟩
  have hinv : RegionInv next (⟨s', next', rootC, szC⟩ : QS α) :=
    ⟨hfB next (le_refl _) (regionSep_of_keysLt hk), ptrGe_of_between (le_refl _) he, ha⟩
  obtain ⟨_, hfr2⟩ := runOps_region ltE fuel ops _ hinv
  intro F
  have hagree : ∀ p m, getN s p = some m →
      getN (runOps ltE fuel ops ⟨s', next', rootC, szC⟩).s p = some m := by
    intro p m hm
    have hlt := getN_keysLt hk hm
    rw [hfr2 p hlt, hfr p hlt]
    exact hm
  exact readTree_congr hagree hc F rootO hp

/-- C8 witness: copying the three-node heap of `cStore`, then pushing and
popping on the copy with an always-throwing comparator, never changes
what the original root reads back. -/
theorem claim_C8_witness :
    readTree (runOps ltBoom 9 [QOp.push 7, QOp.pop]
      (⟨cStoreCopy, 6, some 3, 3⟩ : QS Int)).s 3 (some 0) =
      readTree cStore 3 (some 0) :=
  (claim_C8 ltZ wEmptyZ ltBoom 9 9 cStore cStoreCopy (some 0) (some 3) 3 6 3
    [QOp.push 7, QOp.pop]
    (by unfold KeysLt; decide) (by unfold StoreClosed; decide) (by decide)
    (by decide)).2.2.2 3

/-- C9: self-assignment is a no-op: `q = q` (the `this != &other` check
firing before any teardown) leaves the queue, its size and its drain
order unchanged. -/
theorem claim_C9 (lt : α → α → Bool) (q : PQ α) :
    assignQ true q q = q ∧
    (assignQ true q q).sz = q.sz ∧
    drain lt (assignQ true q q).root = drain lt q.root :=
  ⟨rfl, rfl, rfl⟩

/-- C10: `pop()` also gives the strong exception-safety guarantee:
whenever it raises — in particular when the comparator throws during the
merge of the old root's children — the store is unchanged (old root not
deleted, no node mutated), the root pointer is not reassigned and `sz`
is not decremented. -/
theorem claim_C10 (ltE : α → α → Except Unit Bool) (fuel : Nat) (s : Store α)
    (root : Option Nat) (sz : Nat)
    (hE : isErr (popS ltE fuel s root sz) = true) :
    popS ltE fuel s root sz = .error (s, root, sz) := by
  match hp : popS ltE fuel s root sz with
  | .ok v => rw [hp] at hE; simp [isErr] at hE
  | .error (s', r', sz') =>
    obtain ⟨rfl, rfl, rfl⟩ := popS_error_eq ltE fuel s s' root r' sz sz' hp
    rfl

/-- C10 witness: popping a non-empty three-node queue whose comparator
always throws leaves store, root and size exactly as they were. -/
theorem claim_C10_witness :
    popS ltBoom 9 cStore (some 0) 3 = .error (cStore, some 0, 3) :=
  claim_C10 ltBoom 9 cStore (some 0) 3 (by decide)

end LeftistPQ
